import Mathlib

/-!
Verification development for the OptiScaler auto-manager.

Shallow embedding of the core logic of `steam_utils.py`, `optiscaler_installer.py`,
`fsr_manager.py` and the uninstall flow of `cli.py`:

* paths are modelled as lists of components (each component a nonempty string
  without a slash), joined with a leading slash exactly as `str(Path(...))`
  prints an absolute POSIX path;
* text files are modelled as lists of newline-terminated lines (what Python's
  `readlines` yields for a well-formed text file, with the trailing newline
  stripped from each element);
* the contents of a single directory are modelled as a function from file
  names to optional byte strings;
* machine interaction points (network fetch, interactive selection, copy
  success) are explicit parameters.
-/

namespace OptiScaler

/-! ## String helpers mirroring Python primitives -/

/-- Python's `pat in s` substring test, on character lists. -/
def listInfix (pat : List Char) : List Char → Bool
  | [] => pat.isEmpty
  | c :: t => pat.isPrefixOf (c :: t) || listInfix pat t

/-- Python's `pat in s` substring test on strings. -/
def containsSub (s pat : String) : Bool := listInfix pat.data s.data

/-- Python's `s.startswith(pre)`. -/
def startsWithStr (s pre : String) : Bool := pre.data.isPrefixOf s.data

/-- Python's `s.endswith(suf)`. -/
def endsWithStr (s suf : String) : Bool := suf.data.isSuffixOf s.data

/-- Python's `s.lower()` (ASCII case folding suffices for the markers used). -/
def lowerStr (s : String) : String := ⟨s.data.map Char.toLower⟩

/-- Python's `s.strip()`. -/
def pyStrip (s : String) : String :=
  ⟨((s.data.dropWhile Char.isWhitespace).reverse.dropWhile Char.isWhitespace).reverse⟩

/-- `str(Path)` for an absolute path given by its components. -/
def joinPath (cs : List String) : String := "/" ++ String.intercalate "/" cs

/-- `len(Path(s).parts)` for an absolute path string: the root plus one part
per component, i.e. the number of slash-separated fields of the string. -/
def pathDepth (s : String) : Nat := (s.data.splitOn '/').length

/-- Total Boolean order on strings (code-point lexicographic, as in Python). -/
def strLE (a b : String) : Bool := decide (a < b) || a == b

/-! ## Executable candidate ranker (`SteamUtils.find_game_executable_paths`) -/

/-- One `.exe` file found by `rglob`: directory components relative to the
game root, and the file name. -/
structure ExeFile where
  rel : List String
  name : String
deriving DecidableEq, Repr

/-- One entry of the returned location list. -/
structure Candidate where
  path : String
  exe_name : String
  ctype : String
  priority : Nat
  relative_path : String
deriving DecidableEq, Repr

def skip_paths : List String :=
  ["engine", "redist", "directx", "vcredist", "_commonredist", "tools", "crash"]

def skip_names : List String :=
  ["unins", "setup", "launcher", "redist", "vcredist", "directx", "crash"]

def common_folders : List String := ["bin/x64", "retail", "binaries/win64"]

/-- `str(exe_file.parent.relative_to(game_dir))`. -/
def relPathStr (rel : List String) : String :=
  if rel = [] then "." else String.intercalate "/" rel

/-- The per-file body of the `rglob` loop in `find_game_executable_paths`:
skip rules, then the `if/elif` priority chain, returning the location record
(`None` when the file is skipped by `continue`). -/
def processFile (gameDir : List String) (f : ExeFile) : Option Candidate :=
  if skip_paths.any (fun k => containsSub (lowerStr (joinPath (gameDir ++ f.rel))) k) ||
     skip_names.any (fun k => containsSub (lowerStr f.name) k) then none
  else if joinPath (gameDir ++ f.rel) = joinPath gameDir then
    some ⟨joinPath (gameDir ++ f.rel), f.name, "Main Game Directory", 1, relPathStr f.rel⟩
  else if containsSub (lowerStr f.name) "_shipping" then
    some ⟨joinPath (gameDir ++ f.rel), f.name, "Shipping Executable (UE)", 1, relPathStr f.rel⟩
  else if common_folders.any (fun k => containsSub (lowerStr (joinPath (gameDir ++ f.rel))) k) then
    some ⟨joinPath (gameDir ++ f.rel), f.name, "Common Game Folder", 2, relPathStr f.rel⟩
  else if containsSub (lowerStr f.name) "ue4" || containsSub (lowerStr f.name) "ue5" then none
  else
    some ⟨joinPath (gameDir ++ f.rel), f.name, "Other", 3, relPathStr f.rel⟩

/-- `existing.update(location_info)` on the first list element with the same
`path`, guarded by `priority < existing["priority"]`. -/
def updFirst (c : Candidate) : List Candidate → List Candidate
  | [] => []
  | e :: rest =>
    if e.path = c.path then (if c.priority < e.priority then c else e) :: rest
    else e :: updFirst c rest

/-- The dedup-by-path step at the end of the loop body. -/
def insertCand (acc : List Candidate) (c : Candidate) : List Candidate :=
  if acc.any (fun e => e.path == c.path) then updFirst c acc else acc ++ [c]

/-- One iteration of the `rglob` loop. -/
def rankStep (gameDir : List String) (acc : List Candidate) (f : ExeFile) :
    List Candidate :=
  match processFile gameDir f with
  | none => acc
  | some c => insertCand acc c

/-- The whole `rglob` loop: fold the per-file step over the enumeration order. -/
def collectCands (gameDir : List String) (files : List ExeFile) : List Candidate :=
  files.foldl (rankStep gameDir) []

/-- The final `sort(key=(priority, len(parts), path))`. -/
def candKeyLE (a b : Candidate) : Bool :=
  decide (a.priority < b.priority) ||
  (a.priority == b.priority && decide (pathDepth a.path < pathDepth b.path)) ||
  (a.priority == b.priority && pathDepth a.path == pathDepth b.path && strLE a.path b.path)

/-- Stable insertion of one element into a sorted list (a new element moves
left only past strictly greater keys, matching Python's stable `list.sort`). -/
def stableInsert {α : Type} (le : α → α → Bool) (x : α) : List α → List α
  | [] => [x]
  | y :: ys => if le y x then y :: stableInsert le x ys else x :: y :: ys

/-- Stable sort, the semantics of Python's `list.sort(key=...)`. -/
def stableSort {α : Type} (le : α → α → Bool) (l : List α) : List α :=
  l.foldl (fun acc x => stableInsert le x acc) []

/-- `SteamUtils.find_game_executable_paths`, as a function of the game root
and the `rglob` enumeration of `.exe` files (the list order is the OS
traversal order). -/
def find_game_executable_paths (gameDir : List String) (files : List ExeFile) :
    List Candidate :=
  stableSort candKeyLE (collectCands gameDir files)

/-! ## Game enumeration (`SteamUtils.get_steam_games`) -/

/-- A parsed, validated manifest entry (the fields of the game dict). -/
structure GameRec where
  app_id : String
  name : String
  install_dir : String
  path : String
  library_path : String
deriving DecidableEq, Repr

/-- `games[i] = {...}` on the first element with the given `app_id`. -/
def replaceFirstApp (g : GameRec) : List GameRec → List GameRec
  | [] => []
  | e :: rest =>
    if e.app_id = g.app_id then g :: rest else e :: replaceFirstApp g rest

/-- The dedup step of the manifest loop: append a new `app_id`, otherwise
replace the first record with that `app_id` when the new install path has a
strictly more recent modification time (`mt` is the filesystem's mtime). -/
def gameStep (mt : String → Nat) (games : List GameRec) (g : GameRec) :
    List GameRec :=
  match games.find? (fun x => x.app_id == g.app_id) with
  | none => games ++ [g]
  | some ex => if mt ex.path < mt g.path then replaceFirstApp g games else games

/-- The key order of the final `sorted(games, key=name)`. -/
def gameNameLE (a b : GameRec) : Bool := strLE a.name b.name

/-- `SteamUtils.get_steam_games`, as a function of the stream of validated
manifest records (in discovery order) and the mtime view of the filesystem. -/
def get_steam_games (mt : String → Nat) (recs : List GameRec) : List GameRec :=
  stableSort gameNameLE (recs.foldl (gameStep mt) [])

/-! ## Config editing (`OptiScalerInstaller.configure_optiscaler_ini`)

A file is a list of newline-terminated lines; `none` means the file is
absent. -/

/-- `line.strip().startswith('Fsr4Update=')`. -/
def isKeyLine (l : String) : Bool := startsWithStr (pyStrip l) "Fsr4Update="

/-- A line whose stripped text is exactly the enabled flag. -/
def isTrueLine (l : String) : Bool := pyStrip l == "Fsr4Update=true"

/-- The first loop of the existing-file branch: rewrite the first
`Fsr4Update=` line in place. -/
def replaceFirstKey : List String → List String
  | [] => []
  | l :: rest => if isKeyLine l then "Fsr4Update=true" :: rest else l :: replaceFirstKey rest

/-- The second loop of the existing-file branch: walk the lines tracking
whether an `[OptiScaler]` header was passed; insert `Fsr4Update=true` before
the next section header, or after the last line; `none` when the loop ends
without a `break` (Python's `for`/`else`). -/
def insertTrue (inSec : Bool) : List String → Option (List String)
  | [] => none
  | l :: rest =>
    if pyStrip l = "[OptiScaler]" then (insertTrue true rest).map (fun r => l :: r)
    else if inSec && startsWithStr l "[" then some ("Fsr4Update=true" :: l :: rest)
    else if inSec && rest.isEmpty then some (l :: ["Fsr4Update=true"])
    else (insertTrue inSec rest).map (fun r => l :: r)

/-- The fresh-file contents written when `OptiScaler.ini` does not exist. -/
def defaultIniLines : List String :=
  ["[OptiScaler]", "Fsr4Update=true", "Dx12Upscaler=auto",
   "ColorResourceBarrier=auto", "MotionVectorResourceBarrier=auto",
   "OverrideNvapiDll=auto"]

/-- The existing-file branch of `configure_optiscaler_ini`. -/
def configureLines (ls : List String) : List String :=
  if ls.any isKeyLine then replaceFirstKey ls
  else
    match insertTrue false ls with
    | some r => r
    | none => ls ++ ["", "[OptiScaler]", "Fsr4Update=true"]

/-- `OptiScalerInstaller.configure_optiscaler_ini` on the file state. -/
def configure_optiscaler_ini : Option (List String) → List String
  | none => defaultIniLines
  | some ls => configureLines ls

/-! ## Target-directory filesystem, backup and restore
(`OptiScalerInstaller.backup_original_files` and the restore step of
`uninstall_optiscaler`) -/

/-- Contents of one directory: file name to optional byte string. -/
def FS : Type := String → Option (List Nat)

/-- Write (or delete, with `none`) one name. -/
def fsUpd (fs : FS) (n : String) (v : Option (List Nat)) : FS :=
  fun m => if m = n then v else fs m

def backupSuffix : String := ".optiscaler_backup"

/-- The fixed vendor DLL list `files_to_backup`. -/
def files_to_backup : List String :=
  ["nvngx.dll", "libxess.dll", "amd_fidelityfx_fsr2.dll",
   "amd_fidelityfx_fsr3.dll", "ffx_fsr2_api_x64.dll"]

/-- The backup loop: for each name present, `copy2` it to the suffixed name
and record the mapping (in loop order). -/
def backupGo (fs : FS) : List String → FS × List (String × String)
  | [] => (fs, [])
  | n :: rest =>
    match fs n with
    | some b =>
      let step := backupGo (fsUpd fs (n ++ backupSuffix) (some b)) rest
      (step.1, (n, n ++ backupSuffix) :: step.2)
    | none => backupGo fs rest

/-- `OptiScalerInstaller.backup_original_files`. -/
def backup_original_files (fs : FS) : FS × List (String × String) :=
  backupGo fs files_to_backup

/-- The restore loop of `uninstall_optiscaler`: `shutil.move` each existing
backup back onto its original name. -/
def restoreGo (fs : FS) : List (String × String) → FS
  | [] => fs
  | (orig, bp) :: rest =>
    match fs bp with
    | some b => restoreGo (fsUpd (fsUpd fs orig (some b)) bp none) rest
    | none => restoreGo fs rest

/-! ## Ledger and uninstall (`uninstall_optiscaler`, `load_installations`,
and the uninstall branch of `cli.main_menu`) -/

/-- Persisted installation record (the fields the uninstall flow reads). -/
structure InstallRec where
  install_path : String
  timestamp : String
  backup_files : List (String × String)
  fsr4_dll_copied : Bool
deriving DecidableEq, Repr

/-- The fixed cleanup list `optiscaler_files` (directory names folded in,
since removal is modelled uniformly as unlinking a name). -/
def optiscaler_files : List String :=
  ["OptiScaler.dll", "OptiScaler.ini", "OptiScaler.log", "OptiScaler Setup.bat",
   "setup_linux.sh", "setup_windows.bat", "remove_optiscaler.sh",
   "dxgi.dll", "winmm.dll", "version.dll", "dbghelp.dll",
   "d3d12.dll", "wininet.dll", "winhttp.dll", "OptiScaler.asi",
   "nvngx.dll", "libxess.dll", "amd_fidelityfx_fsr2.dll",
   "amd_fidelityfx_fsr3.dll", "ffx_fsr2_api_x64.dll",
   "D3D12_Optiscaler", "DlssOverrides", "Licenses"]

/-- Delete every listed name that exists. -/
def removeFiles (fs : FS) (ns : List String) : FS :=
  ns.foldl (fun a n => fsUpd a n none) fs

/-- `OptiScalerInstaller.uninstall_optiscaler` on the install directory:
cleanup, then restore backups; the source ends with `return True`
unconditionally once the cleanup steps complete. -/
def uninstall_optiscaler (fs : FS) (r : InstallRec) : FS × Bool :=
  (restoreGo (removeFiles fs optiscaler_files) r.backup_files, true)

/-- `OptiScalerInstaller.load_installations`: missing document loads as `[]`. -/
def load_installations : Option (List InstallRec) → List InstallRec
  | none => []
  | some l => l

/-- The uninstall branch of `cli.main_menu`: call `uninstall_optiscaler` on
`installs[idx]` and, on success, `pop(idx)` and rewrite the ledger file. -/
def cliUninstall (led : Option (List InstallRec)) (fs : FS) (idx : Nat) :
    Option (List InstallRec) × FS :=
  match (load_installations led).get? idx with
  | none => (led, fs)
  | some r =>
    if (uninstall_optiscaler fs r).2 then
      (some ((load_installations led).eraseIdx idx), (uninstall_optiscaler fs r).1)
    else (led, (uninstall_optiscaler fs r).1)

/-! ## Release download (`OptiScalerInstaller.download_latest_nightly`) -/

/-- One release object of the listing endpoint (assets by file name). -/
structure Release where
  prerelease : Bool
  tag_name : String
  assets : List String
deriving DecidableEq, Repr

/-- `asset["name"].endswith((".zip", ".7z"))`. -/
def isArchiveName (n : String) : Bool := endsWithStr n ".zip" || endsWithStr n ".7z"

/-- First asset of a release with a supported archive extension. -/
def pickAsset (assets : List String) : Option String := assets.find? isArchiveName

/-- `release.get("prerelease", False) or release.get("tag_name") == "nightly"`. -/
def isNightlyRel (r : Release) : Bool := r.prerelease || r.tag_name == "nightly"

/-- `OptiScalerInstaller.download_latest_nightly` as a function of the
fetched listing (`none` = network error); the returned value is the name of
the asset that gets downloaded. -/
def download_latest_nightly : Option (List Release) → Option String
  | none => none
  | some releases =>
    match releases.findSome?
        (fun r => if isNightlyRel r then pickAsset r.assets else none) with
    | some a => some a
    | none =>
      match releases with
      | [] => none
      | first :: _ => pickAsset first.assets

/-- The selection rule exactly as the spec sentence words it (for comparison
with the source's behaviour): commit to the first pre-release/nightly
release, pick the first archive asset within that one release only, and fall
back to the head of the listing only when no pre-release/nightly release
exists at all. -/
def specWordedFetch : Option (List Release) → Option String
  | none => none
  | some releases =>
    match releases.find? isNightlyRel with
    | some r => pickAsset r.assets
    | none =>
      match releases with
      | [] => none
      | first :: _ => pickAsset first.assets

/-! ## Auxiliary asset copy (`FSRManager.copy_fsr4_dll_to_compatdata`) -/

/-- The state and interaction outcomes the copy operation depends on:
the cached active-asset path, whether a cached path still exists on disk,
the result of interactive selection when it is triggered (`none` = the user
cancelled or selection failed), and whether the `copy2` call succeeds. -/
structure CopyEnv where
  cachedDll : Option String
  dllOnDisk : String → Bool
  selectOutcome : Option String
  copyOk : Bool

/-- The asset path the copy proceeds with: the cached one when present on
disk, otherwise whatever interactive selection yields. -/
def resolveAsset (env : CopyEnv) : Option String :=
  match env.cachedDll with
  | some p => if env.dllOnDisk p then some p else env.selectOutcome
  | none => env.selectOutcome

/-- `FSRManager.copy_fsr4_dll_to_compatdata`: returns `False` when selection
is needed and fails, otherwise the directory is created and the copy result
decides. -/
def copy_fsr4_dll_to_compatdata (env : CopyEnv) : Bool :=
  match resolveAsset env with
  | none => false
  | some _ => env.copyOk

/-! ## Concrete instances used by counterexamples and witnesses -/

/-- A concrete installation record. -/
def r0 : InstallRec := ⟨"/games/mygame", "2026-01-01T00:00:00", [], false⟩

/-- An empty install directory. -/
def fs0 : FS := fun _ => none

/-- A copy environment with no cached asset, failing selection, and a copy
call that would succeed. -/
def envNoAsset : CopyEnv := ⟨none, fun _ => false, none, true⟩

/-! ## General lemmas -/

theorem stableInsert_perm {α : Type} (le : α → α → Bool) (x : α) :
    ∀ l : List α, (stableInsert le x l).Perm (x :: l) := by
  intro l
  induction l with
  | nil => exact List.Perm.refl _
  | cons y ys ih =>
    unfold stableInsert
    by_cases h : le y x = true
    · rw [if_pos h]
      exact (ih.cons y).trans (List.Perm.swap x y ys)
    · rw [if_neg h]

theorem stableSort_perm {α : Type} (le : α → α → Bool) (l : List α) :
    (stableSort le l).Perm l := by
  suffices h : ∀ (l acc : List α),
      (l.foldl (fun acc x => stableInsert le x acc) acc).Perm (acc ++ l) by
    simpa using h l []
  intro l
  induction l with
  | nil => intro acc; simp
  | cons x t ih =>
    intro acc
    have h1 : (t.foldl (fun acc x => stableInsert le x acc)
        (stableInsert le x acc)).Perm (stableInsert le x acc ++ t) := ih _
    refine h1.trans ?_
    refine (List.Perm.append_right t (stableInsert_perm le x acc)).trans ?_
    exact List.perm_middle.symm

theorem processFile_path_name {g : List String} {f : ExeFile} {c : Candidate}
    (h : processFile g f = some c) :
    c.path = joinPath (g ++ f.rel) ∧ c.exe_name = f.name := by
  unfold processFile at h
  split at h
  · simp at h
  · split at h
    · simp only [Option.some.injEq] at h; subst h; exact ⟨rfl, rfl⟩
    · split at h
      · simp only [Option.some.injEq] at h; subst h; exact ⟨rfl, rfl⟩
      · split at h
        · simp only [Option.some.injEq] at h; subst h; exact ⟨rfl, rfl⟩
        · split at h
          · simp at h
          · simp only [Option.some.injEq] at h; subst h; exact ⟨rfl, rfl⟩

theorem processFile_ue_none {g : List String} {f : ExeFile}
    (hue : (containsSub (lowerStr f.name) "ue4" ||
            containsSub (lowerStr f.name) "ue5") = true)
    (hroot : joinPath (g ++ f.rel) ≠ joinPath g)
    (hship : containsSub (lowerStr f.name) "_shipping" = false)
    (hcommon : common_folders.any
        (fun k => containsSub (lowerStr (joinPath (g ++ f.rel))) k) = false) :
    processFile g f = none := by
  unfold processFile
  by_cases hskip : ((skip_paths.any fun k => containsSub (lowerStr (joinPath (g ++ f.rel))) k) ||
      skip_names.any fun k => containsSub (lowerStr f.name) k) = true
  · rw [if_pos hskip]
  · rw [if_neg hskip, if_neg hroot, hship, hcommon, hue]
    simp

theorem mem_updFirst {c : Candidate} :
    ∀ {l : List Candidate} {e : Candidate}, e ∈ updFirst c l → e ∈ l ∨ e = c := by
  intro l
  induction l with
  | nil => intro e h; simp [updFirst] at h
  | cons y ys ih =>
    intro e h
    unfold updFirst at h
    by_cases hp : y.path = c.path
    · rw [if_pos hp] at h
      rcases List.mem_cons.mp h with h1 | h1
      · by_cases hlt : c.priority < y.priority
        · rw [if_pos hlt] at h1; exact Or.inr h1
        · rw [if_neg hlt] at h1; exact Or.inl (h1 ▸ List.mem_cons_self y ys)
      · exact Or.inl (List.mem_cons_of_mem y h1)
    · rw [if_neg hp] at h
      rcases List.mem_cons.mp h with h1 | h1
      · exact Or.inl (h1 ▸ List.mem_cons_self y ys)
      · rcases ih h1 with h2 | h2
        · exact Or.inl (List.mem_cons_of_mem y h2)
        · exact Or.inr h2

theorem mem_insertCand {acc : List Candidate} {c e : Candidate}
    (h : e ∈ insertCand acc c) : e ∈ acc ∨ e = c := by
  unfold insertCand at h
  split at h
  · exact mem_updFirst h
  · rcases List.mem_append.mp h with h1 | h1
    · exact Or.inl h1
    · exact Or.inr (List.mem_singleton.mp h1)

theorem mem_collect_aux {g : List String} :
    ∀ (files : List ExeFile) (acc : List Candidate) (e : Candidate),
      e ∈ files.foldl (rankStep g) acc →
      e ∈ acc ∨ ∃ f ∈ files, processFile g f = some e := by
  intro files
  induction files with
  | nil => intro acc e h; exact Or.inl h
  | cons f t ih =>
    intro acc e h
    have h1 := ih (rankStep g acc f) e h
    rcases h1 with h1 | ⟨f', hf', hp⟩
    · unfold rankStep at h1
      cases hpf : processFile g f with
      | none => rw [hpf] at h1; exact Or.inl h1
      | some c =>
        rw [hpf] at h1
        rcases mem_insertCand h1 with h2 | h2
        · exact Or.inl h2
        · exact Or.inr ⟨f, List.mem_cons_self f t, h2 ▸ hpf⟩
    · exact Or.inr ⟨f', List.mem_cons_of_mem f hf', hp⟩

theorem mem_rank {g : List String} {files : List ExeFile} {e : Candidate}
    (h : e ∈ find_game_executable_paths g files) :
    ∃ f ∈ files, processFile g f = some e := by
  have h1 : e ∈ collectCands g files :=
    (stableSort_perm candKeyLE (collectCands g files)).mem_iff.mp h
  rcases mem_collect_aux files [] e h1 with h2 | h2
  · simp at h2
  · exact h2

/-! ## Claim theorems -/

/-- C2 counterexample: an executable whose filename contains the "ue4"
marker but which sits directly in the game root is not excluded — it is
returned as the Main Game Directory candidate, contradicting the claim that
such files are excluded regardless of the other priority rules. -/
theorem ue_marker_kept_in_game_root :
    (find_game_executable_paths ["mygame"] [⟨[], "ue4game.exe"⟩]).map
      (fun e => e.exe_name) = ["ue4game.exe"] := by decide

/-- C2 (amended): an executable whose lowercased filename contains "ue4" or
"ue5" is excluded from the output whenever it would otherwise fall through
to the Other rule: it does not sit in the game root, its name lacks the
"_shipping" marker, and its directory path lacks all common-folder markers.
No candidate with that file's directory and name appears in the result. -/
theorem ue_marker_excluded_in_fallthrough (g : List String)
    (files : List ExeFile) (f : ExeFile) (_hmem : f ∈ files)
    (hue : (containsSub (lowerStr f.name) "ue4" ||
            containsSub (lowerStr f.name) "ue5") = true)
    (hroot : joinPath (g ++ f.rel) ≠ joinPath g)
    (hship : containsSub (lowerStr f.name) "_shipping" = false)
    (hcommon : common_folders.any
        (fun k => containsSub (lowerStr (joinPath (g ++ f.rel))) k) = false) :
    ∀ e ∈ find_game_executable_paths g files,
      ¬(e.path = joinPath (g ++ f.rel) ∧ e.exe_name = f.name) := by
  intro e he ⟨hpath, hname⟩
  rcases mem_rank he with ⟨f', _, hp⟩
  rcases processFile_path_name hp with ⟨hp1, hp2⟩
  have hP : joinPath (g ++ f'.rel) = joinPath (g ++ f.rel) := by
    rw [← hp1, hpath]
  have hN : f'.name = f.name := by rw [← hp2, hname]
  have hnone : processFile g f' = none := by
    refine processFile_ue_none ?_ ?_ ?_ ?_
    · rw [hN]; exact hue
    · rw [hP]; exact hroot
    · rw [hN]; exact hship
    · rw [hP]; exact hcommon
  rw [hnone] at hp
  exact Option.noConfusion hp

/-- C2 witness for the amended theorem: with a ue4-marked installer stub in
a subdirectory and a root executable, the returned candidate is not the
stub. -/
theorem ue_marker_excluded_witness :
    ¬((⟨"/mygame", "main.exe", "Main Game Directory", 1, "."⟩ : Candidate).path =
        joinPath (["mygame"] ++ ["data"]) ∧
      (⟨"/mygame", "main.exe", "Main Game Directory", 1, "."⟩ : Candidate).exe_name =
        "ue4stub.exe") :=
  ue_marker_excluded_in_fallthrough ["mygame"]
    [⟨["data"], "ue4stub.exe"⟩, ⟨[], "main.exe"⟩] ⟨["data"], "ue4stub.exe"⟩
    (by decide) (by decide) (by decide) (by decide) (by decide)
    ⟨"/mygame", "main.exe", "Main Game Directory", 1, "."⟩ (by decide)

/-- C4: the ranker is not invariant under the OS traversal order. The same
directory tree (two executables in the game root, a permutation of the same
enumeration) yields different outputs: the first-enumerated executable's
name is kept. The spec requires identical output for any traversal order of
the same tree, so the code fails the spec's purity demand. -/
theorem rank_depends_on_traversal_order :
    ([(⟨[], "alpha.exe"⟩ : ExeFile), ⟨[], "beta.exe"⟩]).Perm
      [⟨[], "beta.exe"⟩, ⟨[], "alpha.exe"⟩] ∧
    find_game_executable_paths ["mygame"] [⟨[], "alpha.exe"⟩, ⟨[], "beta.exe"⟩] ≠
      find_game_executable_paths ["mygame"] [⟨[], "beta.exe"⟩, ⟨[], "alpha.exe"⟩] := by
  constructor
  · exact List.Perm.swap _ _ _
  · decide

/-- C9 counterexample: with no cached asset and a failed interactive
selection, the copy operation returns failure although no copy I/O error
occurred — refuting "fails only on copy I/O error". -/
theorem copy_fails_without_io_error :
    copy_fsr4_dll_to_compatdata envNoAsset = false ∧ envNoAsset.copyOk = true :=
  ⟨rfl, rfl⟩

/-- C9 (amended): the copy operation fails exactly when either no asset
could be resolved (no cached asset usable and interactive selection failed)
or the copy itself fails; when an asset resolves, the copy result alone
decides. -/
theorem copy_fails_iff (env : CopyEnv) :
    copy_fsr4_dll_to_compatdata env = false ↔
      resolveAsset env = none ∨ env.copyOk = false := by
  cases h : resolveAsset env with
  | none => simp [copy_fsr4_dll_to_compatdata, h]
  | some p => simp [copy_fsr4_dll_to_compatdata, h]

theorem not_mem_eraseIdx_of_count_one {α : Type} [DecidableEq α] :
    ∀ (l : List α) (idx : Nat) (r : α),
      l.get? idx = some r → l.count r = 1 → r ∉ l.eraseIdx idx := by
  intro l
  induction l with
  | nil => intro idx r hget; simp at hget
  | cons a t ih =>
    intro idx r hget hcount
    cases idx with
    | zero =>
      have ha : a = r := by simpa using hget
      subst ha
      have hzero : t.count a = 0 := by
        have := hcount
        rw [List.count_cons_self] at this
        omega
      simpa [List.eraseIdx] using List.count_eq_zero.mp hzero
    | succ n =>
      have hget' : t.get? n = some r := by simpa using hget
      have hrt : r ∈ t := List.get?_mem hget'
      have hne : a ≠ r := by
        intro hh
        subst hh
        rw [List.count_cons_self] at hcount
        have : t.count a ≠ 0 := fun h0 => (List.count_eq_zero.mp h0) hrt
        omega
      have hcount' : t.count r = 1 := by
        rw [List.count_cons_of_ne (Ne.symm hne)] at hcount
        exact hcount
      have hnot := ih n r hget' hcount'
      simp only [List.eraseIdx, List.mem_cons]
      rintro (hh | hh)
      · exact hne hh.symm
      · exact hnot hh

/-- C1 counterexample: when the ledger holds two identical records, a
successful uninstall of the record at index 0 still leaves the record in
the loaded ledger, refuting "a subsequent load() no longer contains r". -/
theorem uninstall_leaves_duplicate_record :
    (uninstall_optiscaler fs0 r0).2 = true ∧
    (cliUninstall (some [r0, r0]) fs0 0).1 = some [r0] ∧
    r0 ∈ load_installations (cliUninstall (some [r0, r0]) fs0 0).1 := by
  refine ⟨rfl, rfl, ?_⟩
  show r0 ∈ [r0]
  exact List.mem_singleton.mpr rfl

/-- C1 (amended): for a record r stored at index idx that occurs exactly
once in the ledger, `uninstall_optiscaler` returns success unconditionally
once the cleanup attempts complete, and the uninstall flow persists a ledger
whose subsequent load no longer contains r (in general only the occurrence
at the chosen index is removed). -/
theorem uninstall_removes_unique_record (led : Option (List InstallRec))
    (fs : FS) (idx : Nat) (r : InstallRec)
    (hget : (load_installations led).get? idx = some r)
    (hcount : (load_installations led).count r = 1) :
    (uninstall_optiscaler fs r).2 = true ∧
    r ∉ load_installations (cliUninstall led fs idx).1 := by
  refine ⟨rfl, ?_⟩
  unfold cliUninstall
  rw [hget]
  show r ∉ load_installations (some ((load_installations led).eraseIdx idx))
  exact not_mem_eraseIdx_of_count_one _ idx r hget hcount

/-- C1 witness: a singleton ledger, uninstalling index 0. -/
theorem uninstall_removes_unique_record_witness :
    (uninstall_optiscaler fs0 r0).2 = true ∧
    r0 ∉ load_installations (cliUninstall (some [r0]) fs0 0).1 :=
  uninstall_removes_unique_record (some [r0]) fs0 0 r0 rfl (by decide)

/-- C3 counterexample: with two pre-releases where only the second carries a
`.zip`/`.7z` asset, the code downloads the second pre-release's asset, while
the claimed rule (commit to the first pre-release, pick only within it, fall
back only when no pre-release exists) would return empty. -/
theorem download_scans_past_first_nightly :
    download_latest_nightly
        (some [⟨true, "v1-pre", ["readme.txt"]⟩, ⟨true, "v2-pre", ["optiscaler.zip"]⟩]) =
      some "optiscaler.zip" ∧
    specWordedFetch
        (some [⟨true, "v1-pre", ["readme.txt"]⟩, ⟨true, "v2-pre", ["optiscaler.zip"]⟩]) =
      none := by
  constructor
  · decide
  · decide

/-- C3 (amended): the download selects the first asset ending in `.zip` or
`.7z` found while scanning the pre-release/nightly releases in listing
order (moving past a pre-release that has no such asset); only when no
pre-release/nightly release contains a suitable asset does it fall back to
the first entry of the listing; it returns empty on a network error or when
nothing suitable exists. -/
theorem download_first_nightly_with_asset (ors : Option (List Release)) :
    download_latest_nightly ors =
      match ors with
      | none => none
      | some rs =>
        match rs.find? (fun r => isNightlyRel r && (pickAsset r.assets).isSome) with
        | some r => pickAsset r.assets
        | none =>
          match rs with
          | [] => none
          | first :: _ => pickAsset first.assets := by
  cases ors with
  | none => rfl
  | some rs =>
    have hscan : ∀ l : List Release,
        l.findSome? (fun r => if isNightlyRel r then pickAsset r.assets else none) =
        (l.find? (fun r => isNightlyRel r && (pickAsset r.assets).isSome)).bind
          (fun r => pickAsset r.assets) := by
      intro l
      induction l with
      | nil => rfl
      | cons r t ih =>
        rw [List.findSome?_cons, List.find?_cons]
        by_cases hn : isNightlyRel r = true
        · cases hp : pickAsset r.assets with
          | none => simp [hn, hp, ih]
          | some a => simp [hn, hp]
        · simp only [Bool.not_eq_true] at hn
          simp [hn, ih]
    unfold download_latest_nightly
    dsimp only
    rw [hscan rs]
    cases hfind : rs.find? (fun r => isNightlyRel r && (pickAsset r.assets).isSome) with
    | none => simp
    | some r =>
      have hpred := List.find?_some hfind
      have hsome : (pickAsset r.assets).isSome = true := by
        simp only [Bool.and_eq_true] at hpred
        exact hpred.2
      cases hp : pickAsset r.assets with
      | none => rw [hp] at hsome; simp at hsome
      | some a => simp [hp]

theorem trueLine_isKeyLine {l : String} (h : isTrueLine l = true) :
    isKeyLine l = true := by
  have heq : pyStrip l = "Fsr4Update=true" := by
    unfold isTrueLine at h
    exact eq_of_beq h
  unfold isKeyLine
  rw [heq]
  decide

theorem countTrue_zero_of_countKey_zero {ls : List String}
    (h : ls.countP isKeyLine = 0) : ls.countP isTrueLine = 0 := by
  rw [List.countP_eq_zero] at h ⊢
  intro a ha hta
  exact h a ha (trueLine_isKeyLine hta)

theorem countKey_cons_zero {l : String} {rest : List String}
    (h : (l :: rest).countP isKeyLine = 0) :
    isKeyLine l = false ∧ rest.countP isKeyLine = 0 := by
  rw [List.countP_cons] at h
  by_cases hk : isKeyLine l = true
  · rw [if_pos hk] at h; omega
  · rw [if_neg hk] at h
    exact ⟨by simpa using hk, by omega⟩

theorem replaceFirstKey_counts :
    ∀ ls : List String, ls.countP isKeyLine = 1 →
      (replaceFirstKey ls).countP isKeyLine = 1 ∧
      (replaceFirstKey ls).countP isTrueLine = 1 := by
  intro ls
  induction ls with
  | nil => intro h; simp [List.countP, List.countP.go] at h
  | cons a t ih =>
    intro h
    rw [List.countP_cons] at h
    by_cases hk : isKeyLine a = true
    · rw [if_pos hk] at h
      have ht : t.countP isKeyLine = 0 := by omega
      have htt : t.countP isTrueLine = 0 := countTrue_zero_of_countKey_zero ht
      unfold replaceFirstKey
      rw [if_pos hk]
      constructor
      · rw [List.countP_cons, ht]; decide
      · rw [List.countP_cons, htt]; decide
    · rw [if_neg hk] at h
      have h1 : t.countP isKeyLine = 1 := by omega
      have hkf : isKeyLine a = false := by simpa using hk
      have htf : isTrueLine a = false := by
        by_cases hta : isTrueLine a = true
        · exact absurd (trueLine_isKeyLine hta) hk
        · exact by simpa using hta
      rcases ih h1 with ⟨ihk, iht⟩
      unfold replaceFirstKey
      rw [if_neg hk]
      constructor
      · rw [List.countP_cons, ihk, hkf]; simp
      · rw [List.countP_cons, iht, htf]; simp

theorem insertTrue_counts :
    ∀ (ls : List String) (b : Bool) (r : List String),
      ls.countP isKeyLine = 0 → insertTrue b ls = some r →
      r.countP isKeyLine = 1 ∧ r.countP isTrueLine = 1 := by
  intro ls
  induction ls with
  | nil => intro b r _ hr; simp [insertTrue] at hr
  | cons l rest ih =>
    intro b r h0 hr
    rcases countKey_cons_zero h0 with ⟨hlk, hrest⟩
    have hlt : isTrueLine l = false := by
      by_cases hta : isTrueLine l = true
      · rw [trueLine_isKeyLine hta] at hlk; cases hlk
      · exact by simpa using hta
    unfold insertTrue at hr
    by_cases hsec : pyStrip l = "[OptiScaler]"
    · rw [if_pos hsec] at hr
      cases hrec : insertTrue true rest with
      | none => rw [hrec] at hr; simp at hr
      | some r' =>
        rw [hrec] at hr
        simp only [Option.map_some', Option.some.injEq] at hr
        subst hr
        rcases ih true r' hrest hrec with ⟨ik, it⟩
        constructor
        · rw [List.countP_cons, ik, hlk]; simp
        · rw [List.countP_cons, it, hlt]; simp
    · rw [if_neg hsec] at hr
      by_cases hbr : (b && startsWithStr l "[") = true
      · rw [if_pos hbr] at hr
        simp only [Option.some.injEq] at hr
        subst hr
        have htt : rest.countP isTrueLine = 0 := countTrue_zero_of_countKey_zero hrest
        constructor
        · rw [List.countP_cons, List.countP_cons, hrest, hlk]
          decide
        · rw [List.countP_cons, List.countP_cons, htt, hlt]
          decide
      · rw [if_neg hbr] at hr
        by_cases hlast : (b && rest.isEmpty) = true
        · rw [if_pos hlast] at hr
          simp only [Option.some.injEq] at hr
          subst hr
          constructor
          · rw [List.countP_cons, hlk]; decide
          · rw [List.countP_cons, hlt]; decide
        · rw [if_neg hlast] at hr
          cases hrec : insertTrue b rest with
          | none => rw [hrec] at hr; simp at hr
          | some r' =>
            rw [hrec] at hr
            simp only [Option.map_some', Option.some.injEq] at hr
            subst hr
            rcases ih b r' hrest hrec with ⟨ik, it⟩
            constructor
            · rw [List.countP_cons, ik, hlk]; simp
            · rw [List.countP_cons, it, hlt]; simp

/-- The four starting states named by the spec's idempotence property:
absent file, file without the key, file whose single key line sets the flag
to false, and a file holding only an unrelated section. -/
def C7Start (st : Option (List String)) : Prop :=
  st = none ∨
  (∃ ls, st = some ls ∧ ls.countP isKeyLine = 0) ∨
  (∃ ls, st = some ls ∧ ls.countP isKeyLine = 1 ∧
    ∃ l ∈ ls, pyStrip l = "Fsr4Update=false") ∨
  (∃ hdr rest, st = some (hdr :: rest) ∧ startsWithStr hdr "[" = true ∧
    pyStrip hdr ≠ "[OptiScaler]" ∧ (hdr :: rest).countP isKeyLine = 0)

theorem configure_noKey_key_count {ls : List String}
    (h0 : ls.countP isKeyLine = 0) :
    (configureLines ls).countP isKeyLine = 1 := by
  have hany : ¬ ls.any isKeyLine = true := by
    rw [List.any_eq_true]
    rintro ⟨a, ha, hk⟩
    exact absurd hk (by
      have := List.countP_eq_zero.mp h0 a ha
      simpa using this)
  unfold configureLines
  rw [if_neg hany]
  cases hins : insertTrue false ls with
  | some r => exact (insertTrue_counts ls false r h0 hins).1
  | none =>
    rw [List.countP_append, h0]
    decide

theorem configure_run1_key_count (st : Option (List String)) (h : C7Start st) :
    (configure_optiscaler_ini st).countP isKeyLine = 1 := by
  rcases h with h | ⟨ls, hst, h0⟩ | ⟨ls, hst, h1, _⟩ | ⟨hdr, rest, hst, _, _, h0⟩
  · subst h
    decide
  · subst hst
    exact configure_noKey_key_count h0
  · subst hst
    have hany : ls.any isKeyLine = true := by
      rw [List.any_eq_true]
      have := List.countP_pos.mp (by omega : 0 < ls.countP isKeyLine)
      exact this
    show (configureLines ls).countP isKeyLine = 1
    unfold configureLines
    rw [if_pos hany]
    exact (replaceFirstKey_counts ls h1).1
  · subst hst
    exact configure_noKey_key_count h0

/-- C7: running the config-ensure step twice from any of the four starting
states named by the spec (absent file, file without the key, file with the
key set to false, file with only an unrelated section) leaves a document
with exactly one line whose stripped text is `Fsr4Update=true`. -/
theorem configure_twice_single_true_line (st : Option (List String))
    (h : C7Start st) :
    (configure_optiscaler_ini (some (configure_optiscaler_ini st))).countP
      isTrueLine = 1 := by
  have h1 := configure_run1_key_count st h
  have hany : (configure_optiscaler_ini st).any isKeyLine = true := by
    rw [List.any_eq_true]
    exact List.countP_pos.mp (by omega)
  show (configureLines (configure_optiscaler_ini st)).countP isTrueLine = 1
  unfold configureLines
  rw [if_pos hany]
  exact (replaceFirstKey_counts _ h1).2

/-- C7 witness: the absent-file state, run twice. -/
theorem configure_twice_witness :
    (configure_optiscaler_ini (some (configure_optiscaler_ini none))).countP
      isTrueLine = 1 :=
  configure_twice_single_true_line none (Or.inl rfl)

/-- C10: whenever the file has a line whose stripped text starts with
`Fsr4Update=`, the config-ensure step rewrites exactly the first such line
in place to `Fsr4Update=true` — wherever it sits, in whichever section — and
inserts nothing anywhere else. -/
theorem configure_rewrites_first_key_line (ls : List String)
    (h : ls.any isKeyLine = true) :
    ∃ pre l post, ls = pre ++ l :: post ∧ (∀ x ∈ pre, isKeyLine x = false) ∧
      isKeyLine l = true ∧
      configureLines ls = pre ++ "Fsr4Update=true" :: post := by
  have hrf : ∀ ls : List String, ls.any isKeyLine = true →
      ∃ pre l post, ls = pre ++ l :: post ∧ (∀ x ∈ pre, isKeyLine x = false) ∧
        isKeyLine l = true ∧
        replaceFirstKey ls = pre ++ "Fsr4Update=true" :: post := by
    intro ls
    induction ls with
    | nil => intro hh; simp at hh
    | cons a t ih =>
      intro hh
      by_cases hk : isKeyLine a = true
      · refine ⟨[], a, t, rfl, by simp, hk, ?_⟩
        unfold replaceFirstKey
        rw [if_pos hk]
        rfl
      · have ht : t.any isKeyLine = true := by
          rcases List.any_eq_true.mp hh with ⟨x, hx, hxk⟩
          rcases List.mem_cons.mp hx with h1 | h1
          · exact absurd (h1 ▸ hxk) hk
          · exact List.any_eq_true.mpr ⟨x, h1, hxk⟩
        rcases ih ht with ⟨pre, l, post, he, hpre, hl, hrep⟩
        refine ⟨a :: pre, l, post, by rw [he]; rfl, ?_, hl, ?_⟩
        · intro x hx
          rcases List.mem_cons.mp hx with h1 | h1
          · exact h1 ▸ (by simpa using hk)
          · exact hpre x h1
        · unfold replaceFirstKey
          rw [if_neg hk, hrep]
          rfl
  rcases hrf ls h with ⟨pre, l, post, he, hpre, hl, hrep⟩
  refine ⟨pre, l, post, he, hpre, hl, ?_⟩
  unfold configureLines
  rw [if_pos h]
  exact hrep

/-- The priorities assigned to the processed candidates that share a given
containing directory. -/
def priosOf (P : List Candidate) (q : String) : List Nat :=
  (P.filter (fun c => c.path == q)).map Candidate.priority

/-- `n` is the minimum of the list `l` (member and lower bound). -/
def MinIn (n : Nat) (l : List Nat) : Prop := n ∈ l ∧ ∀ p ∈ l, n ≤ p

theorem priosOf_append (P : List Candidate) (c : Candidate) (q : String) :
    priosOf (P ++ [c]) q =
      priosOf P q ++ (if c.path = q then [c.priority] else []) := by
  unfold priosOf
  rw [List.filter_append, List.map_append]
  congr 1
  by_cases h : c.path = q
  · simp [h]
  · simp [h]

theorem priosOf_nil_of_absent {P : List Candidate} {q : String}
    (h : ∀ c ∈ P, c.path ≠ q) : priosOf P q = [] := by
  unfold priosOf
  rw [List.filter_eq_nil.mpr ?_]
  · rfl
  · intro c hc
    simp [h c hc]

/-- The dedup invariant of the `rglob` loop: paths are pairwise distinct,
each accumulated entry's priority is the minimum assigned for its path among
the processed candidates, and every processed path is represented. -/
def CInv (P acc : List Candidate) : Prop :=
  ((acc.map Candidate.path).Nodup) ∧
  (∀ e ∈ acc, MinIn e.priority (priosOf P e.path)) ∧
  (∀ c ∈ P, ∃ e ∈ acc, e.path = c.path)

theorem updFirst_cons (c e : Candidate) (rest : List Candidate) :
    updFirst c (e :: rest) =
      if e.path = c.path then (if c.priority < e.priority then c else e) :: rest
      else e :: updFirst c rest := rfl

theorem updFirst_inv {P : List Candidate} (c : Candidate) :
    ∀ acc : List Candidate, ((acc.map Candidate.path).Nodup) →
      (∀ e ∈ acc, MinIn e.priority (priosOf P e.path)) →
      ((updFirst c acc).map Candidate.path = acc.map Candidate.path) ∧
      (∀ e ∈ updFirst c acc, MinIn e.priority (priosOf (P ++ [c]) e.path)) := by
  intro acc
  induction acc with
  | nil => intro _ _; exact ⟨rfl, by intro e he; simp [updFirst] at he⟩
  | cons a rest ih =>
    intro hnodup hmin
    have hnr : (rest.map Candidate.path).Nodup := (List.nodup_cons.mp
      (by simpa using hnodup)).2
    have hna : a.path ∉ rest.map Candidate.path := (List.nodup_cons.mp
      (by simpa using hnodup)).1
    have hminr : ∀ e ∈ rest, MinIn e.priority (priosOf P e.path) :=
      fun e he => hmin e (List.mem_cons_of_mem a he)
    have hmina := hmin a (List.mem_cons_self a rest)
    by_cases hp : a.path = c.path
    · have hrw : updFirst c (a :: rest) =
          (if c.priority < a.priority then c else a) :: rest := by
        unfold updFirst
        rw [if_pos hp]
      rw [hrw]
      have hrest_ne : ∀ e ∈ rest, e.path ≠ c.path := by
        intro e he hep
        exact hna (hp ▸ hep ▸ List.mem_map_of_mem Candidate.path he)
      have hhead : (if c.priority < a.priority then c else a).path = a.path := by
        by_cases hlt : c.priority < a.priority
        · rw [if_pos hlt, ← hp]
        · rw [if_neg hlt]
      constructor
      · rw [List.map_cons, List.map_cons, hhead]
      · intro e he
        rcases List.mem_cons.mp he with h1 | h1
        · rw [h1, hhead, priosOf_append, if_pos hp.symm]
          rcases hmina with ⟨hm, hlb⟩
          by_cases hlt : c.priority < a.priority
          · rw [if_pos hlt]
            refine ⟨List.mem_append.mpr (Or.inr (List.mem_singleton.mpr rfl)), ?_⟩
            intro p hp2
            rcases List.mem_append.mp hp2 with h2 | h2
            · exact le_of_lt (lt_of_lt_of_le hlt (hlb p h2))
            · exact (List.mem_singleton.mp h2).ge
          · rw [if_neg hlt]
            refine ⟨List.mem_append.mpr (Or.inl hm), ?_⟩
            intro p hp2
            rcases List.mem_append.mp hp2 with h2 | h2
            · exact hlb p h2
            · rw [List.mem_singleton.mp h2]; omega
        · rw [priosOf_append, if_neg (fun hh => hrest_ne e h1 hh.symm)]
          rw [List.append_nil]
          exact hminr e h1
    · have hrw : updFirst c (a :: rest) = a :: updFirst c rest := by
        rw [updFirst_cons, if_neg hp]
      rw [hrw]
      rcases ih hnr hminr with ⟨ihmap, ihmin⟩
      constructor
      · rw [List.map_cons, List.map_cons, ihmap]
      · intro e he
        rcases List.mem_cons.mp he with h1 | h1
        · rw [h1, priosOf_append, if_neg (fun hh => hp hh.symm), List.append_nil]
          exact hmina
        · exact ihmin e h1

theorem insertCand_inv {P acc : List Candidate} {c : Candidate}
    (h : CInv P acc) : CInv (P ++ [c]) (insertCand acc c) := by
  rcases h with ⟨hnodup, hmin, hrep⟩
  unfold insertCand
  by_cases hany : acc.any (fun e => e.path == c.path) = true
  · rw [if_pos hany]
    rcases updFirst_inv c acc hnodup hmin with ⟨hmap, hmin'⟩
    refine ⟨?_, hmin', ?_⟩
    · rw [hmap]; exact hnodup
    · intro c' hc'
      have hfind : c'.path ∈ (updFirst c acc).map Candidate.path := by
        rw [hmap]
        rcases List.mem_append.mp hc' with h1 | h1
        · rcases hrep c' h1 with ⟨e, he, hep⟩
          exact hep ▸ List.mem_map_of_mem Candidate.path he
        · rw [List.mem_singleton.mp h1]
          rcases List.any_eq_true.mp hany with ⟨e, he, hbe⟩
          have : e.path = c.path := by simpa using hbe
          exact this ▸ List.mem_map_of_mem Candidate.path he
      rcases List.mem_map.mp hfind with ⟨e, he, hep⟩
      exact ⟨e, he, hep⟩
  · rw [if_neg hany]
    have hnone : ∀ e ∈ acc, e.path ≠ c.path := by
      intro e he hep
      exact hany (List.any_eq_true.mpr ⟨e, he, by simp [hep]⟩)
    have habsent : ∀ c' ∈ P, c'.path ≠ c.path := by
      intro c' hc' hcp
      rcases hrep c' hc' with ⟨e, he, hep⟩
      exact hnone e he (hep.trans hcp)
    refine ⟨?_, ?_, ?_⟩
    · rw [List.map_append]
      rw [List.nodup_append]
      refine ⟨hnodup, by simp, ?_⟩
      intro p hpmem hpsing
      simp only [List.map_cons, List.map_nil, List.mem_singleton] at hpsing
      rcases List.mem_map.mp hpmem with ⟨e, he, hep⟩
      exact hnone e he (hep.trans hpsing)
    · intro e he
      rcases List.mem_append.mp he with h1 | h1
      · rw [priosOf_append, if_neg (fun hh => hnone e h1 hh.symm),
          List.append_nil]
        exact hmin e h1
      · rw [List.mem_singleton.mp h1, priosOf_append, if_pos rfl,
          priosOf_nil_of_absent habsent, List.nil_append]
        exact ⟨List.mem_singleton.mpr rfl,
          fun p hp2 => (List.mem_singleton.mp hp2).ge⟩
    · intro c' hc'
      rcases List.mem_append.mp hc' with h1 | h1
      · rcases hrep c' h1 with ⟨e, he, hep⟩
        exact ⟨e, List.mem_append.mpr (Or.inl he), hep⟩
      · rw [List.mem_singleton.mp h1]
        exact ⟨c, List.mem_append.mpr (Or.inr (List.mem_singleton.mpr rfl)), rfl⟩

theorem candFold_inv :
    ∀ (cs P acc : List Candidate), CInv P acc →
      CInv (P ++ cs) (cs.foldl insertCand acc) := by
  intro cs
  induction cs with
  | nil => intro P acc h; simpa using h
  | cons c t ih =>
    intro P acc h
    have h1 := ih (P ++ [c]) (insertCand acc c) (insertCand_inv h)
    rw [List.append_assoc] at h1
    simpa using h1

theorem collect_eq (g : List String) :
    ∀ (files : List ExeFile) (acc : List Candidate),
      files.foldl (rankStep g) acc =
        (files.filterMap (processFile g)).foldl insertCand acc := by
  intro files
  induction files with
  | nil => intro acc; rfl
  | cons f t ih =>
    intro acc
    cases hp : processFile g f with
    | none =>
      rw [List.foldl_cons, List.filterMap_cons_none hp]
      rw [show rankStep g acc f = acc by simp [rankStep, hp]]
      exact ih acc
    | some c =>
      rw [List.foldl_cons, List.filterMap_cons_some hp, List.foldl_cons]
      rw [show rankStep g acc f = insertCand acc c by simp [rankStep, hp]]
      exact ih (insertCand acc c)

/-- The priorities of the non-skipped executables that resolve to a given
containing directory. -/
def priosAt (g : List String) (files : List ExeFile) (q : String) : List Nat :=
  priosOf (files.filterMap (processFile g)) q

/-- C5: the ranker returns at most one entry per containing directory (no
two entries share a `path`), and each kept entry's priority is the minimum
priority value assigned among all non-skipped executables of that
directory. -/
theorem rank_unique_paths_min_priority (g : List String)
    (files : List ExeFile) :
    ((find_game_executable_paths g files).map Candidate.path).Nodup ∧
    ∀ e ∈ find_game_executable_paths g files,
      e.priority ∈ priosAt g files e.path ∧
      ∀ p ∈ priosAt g files e.path, e.priority ≤ p := by
  have hinv : CInv (files.filterMap (processFile g))
      ((files.filterMap (processFile g)).foldl insertCand []) := by
    have := candFold_inv (files.filterMap (processFile g)) [] []
      ⟨by simp, by simp, by simp⟩
    simpa using this
  have hcoll : collectCands g files =
      (files.filterMap (processFile g)).foldl insertCand [] :=
    collect_eq g files []
  rcases hinv with ⟨hnodup, hmin, _⟩
  have hperm : (find_game_executable_paths g files).Perm (collectCands g files) :=
    stableSort_perm candKeyLE _
  constructor
  · refine ((hperm.map Candidate.path).symm.nodup ?_)
    rw [hcoll]
    exact hnodup
  · intro e he
    have he' : e ∈ (files.filterMap (processFile g)).foldl insertCand [] := by
      rw [← hcoll]
      exact hperm.mem_iff.mp he
    exact hmin e he'

/-- The dedup invariant of the manifest loop: app_ids are pairwise distinct,
every accumulated record is one of the processed records and dominates the
mtimes of all processed records sharing its app_id, and every processed
app_id is represented. -/
def GInv (mt : String → Nat) (P acc : List GameRec) : Prop :=
  ((acc.map GameRec.app_id).Nodup) ∧
  (∀ e ∈ acc, e ∈ P ∧ ∀ s ∈ P, s.app_id = e.app_id → mt s.path ≤ mt e.path) ∧
  (∀ s ∈ P, ∃ e ∈ acc, e.app_id = s.app_id)

theorem replaceFirstApp_spec (g : GameRec) :
    ∀ acc : List GameRec, (∃ x ∈ acc, x.app_id = g.app_id) →
      ∃ pre ex post, acc = pre ++ ex :: post ∧ ex.app_id = g.app_id ∧
        (∀ x ∈ pre, x.app_id ≠ g.app_id) ∧
        replaceFirstApp g acc = pre ++ g :: post := by
  intro acc
  induction acc with
  | nil => rintro ⟨x, hx, _⟩; simp at hx
  | cons a t ih =>
    rintro ⟨x, hx, hxid⟩
    by_cases ha : a.app_id = g.app_id
    · refine ⟨[], a, t, rfl, ha, by simp, ?_⟩
      unfold replaceFirstApp
      rw [if_pos ha]
      rfl
    · have hxt : x ∈ t := by
        rcases List.mem_cons.mp hx with h1 | h1
        · exact absurd (h1 ▸ hxid) ha
        · exact h1
      rcases ih ⟨x, hxt, hxid⟩ with ⟨pre, ex, post, he, hexid, hpre, hrep⟩
      refine ⟨a :: pre, ex, post, by rw [he]; rfl, hexid, ?_, ?_⟩
      · intro y hy
        rcases List.mem_cons.mp hy with h1 | h1
        · exact h1 ▸ ha
        · exact hpre y h1
      · unfold replaceFirstApp
        rw [if_neg ha, hrep]
        rfl

theorem map_nodup_inj {l : List GameRec}
    (h : (l.map GameRec.app_id).Nodup) :
    ∀ a ∈ l, ∀ b ∈ l, a.app_id = b.app_id → a = b := by
  intro a ha b hb hab
  exact List.inj_on_of_nodup_map h ha hb hab

theorem gameStep_inv {mt : String → Nat} {P acc : List GameRec}
    (hinv : GInv mt P acc) (g : GameRec) :
    GInv mt (P ++ [g]) (gameStep mt acc g) := by
  rcases hinv with ⟨hnodup, hdom, hrep⟩
  unfold gameStep
  cases hfind : acc.find? (fun x => x.app_id == g.app_id) with
  | none =>
    have hnone : ∀ x ∈ acc, x.app_id ≠ g.app_id := by
      intro x hx hxid
      have := List.find?_eq_none.mp hfind x hx
      simp [hxid] at this
    refine ⟨?_, ?_, ?_⟩
    · rw [List.map_append]
      rw [List.nodup_append]
      refine ⟨hnodup, by simp, ?_⟩
      intro a ha hb
      simp only [List.map_cons, List.map_nil, List.mem_singleton] at hb
      rcases List.mem_map.mp ha with ⟨x, hx, hxa⟩
      exact hnone x hx (hxa.trans hb)
    · intro e he
      rcases List.mem_append.mp he with h1 | h1
      · rcases hdom e h1 with ⟨hP, hbound⟩
        refine ⟨List.mem_append.mpr (Or.inl hP), ?_⟩
        intro s hs hsid
        rcases List.mem_append.mp hs with h2 | h2
        · exact hbound s h2 hsid
        · rw [List.mem_singleton.mp h2] at hsid
          exact absurd hsid.symm (hnone e h1)
      · rw [List.mem_singleton.mp h1]
        refine ⟨List.mem_append.mpr (Or.inr (List.mem_singleton.mpr rfl)), ?_⟩
        intro s hs hsid
        rcases List.mem_append.mp hs with h2 | h2
        · rcases hrep s h2 with ⟨e', he', heid⟩
          exact absurd (heid.trans hsid) (hnone e' he')
        · rw [List.mem_singleton.mp h2]
    · intro s hs
      rcases List.mem_append.mp hs with h1 | h1
      · rcases hrep s h1 with ⟨e, he, hid⟩
        exact ⟨e, List.mem_append.mpr (Or.inl he), hid⟩
      · rw [List.mem_singleton.mp h1]
        exact ⟨g, List.mem_append.mpr (Or.inr (List.mem_singleton.mpr rfl)), rfl⟩
  | some ex =>
    have hexmem : ex ∈ acc := List.mem_of_find?_eq_some hfind
    have hexid : ex.app_id = g.app_id := by
      have := List.find?_some hfind
      simpa using this
    show GInv mt (P ++ [g])
      (if mt ex.path < mt g.path then replaceFirstApp g acc else acc)
    by_cases hmt : mt ex.path < mt g.path
    · rw [if_pos hmt]
      rcases replaceFirstApp_spec g acc ⟨ex, hexmem, hexid⟩ with
        ⟨pre, ex', post, heq, hexid', hpre, hrep'⟩
      rw [hrep']
      have hmapeq : (pre ++ g :: post).map GameRec.app_id =
          acc.map GameRec.app_id := by
        rw [heq, List.map_append, List.map_append, List.map_cons, List.map_cons,
          hexid']
      have hother : ∀ e ∈ pre ++ post, e.app_id ≠ g.app_id := by
        have hn : (acc.map GameRec.app_id).Nodup := hnodup
        rw [heq] at hn
        rw [List.map_append, List.map_cons] at hn
        intro e he hid
        rcases List.mem_append.mp he with h1 | h1
        · exact hpre e h1 hid
        · have h2 := (List.nodup_append.mp hn).2
          have h3 := (List.nodup_cons.mp h2.1).1
          exact h3 (hexid' ▸ hid ▸ List.mem_map_of_mem GameRec.app_id h1)
      have hexbound := hdom ex' (heq ▸ List.mem_append.mpr
        (Or.inr (List.mem_cons_self ex' post)))
      refine ⟨?_, ?_, ?_⟩
      · rw [hmapeq]; exact hnodup
      · intro e he
        have hsplit : e ∈ pre ++ post ∨ e = g := by
          rcases List.mem_append.mp he with h1 | h1
          · exact Or.inl (List.mem_append.mpr (Or.inl h1))
          · rcases List.mem_cons.mp h1 with h2 | h2
            · exact Or.inr h2
            · exact Or.inl (List.mem_append.mpr (Or.inr h2))
        rcases hsplit with h1 | h1
        · have hmem : e ∈ acc := by
            rw [heq]
            rcases List.mem_append.mp h1 with h2 | h2
            · exact List.mem_append.mpr (Or.inl h2)
            · exact List.mem_append.mpr (Or.inr (List.mem_cons_of_mem ex' h2))
          rcases hdom e hmem with ⟨hP, hbound⟩
          refine ⟨List.mem_append.mpr (Or.inl hP), ?_⟩
          intro s hs hsid
          rcases List.mem_append.mp hs with h2 | h2
          · exact hbound s h2 hsid
          · rw [List.mem_singleton.mp h2] at hsid
            exact absurd hsid.symm (hother e h1)
        · subst h1
          refine ⟨List.mem_append.mpr (Or.inr (List.mem_singleton.mpr rfl)), ?_⟩
          intro s hs hsid
          rcases List.mem_append.mp hs with h2 | h2
          · have hb := hexbound.2 s h2 (hsid.trans hexid'.symm)
            have hexeq : ex' = ex := by
              refine map_nodup_inj hnodup ex' ?_ ex hexmem (by rw [hexid', hexid])
              rw [heq]
              exact List.mem_append.mpr (Or.inr (List.mem_cons_self ex' post))
            rw [hexeq] at hb
            omega
          · rw [List.mem_singleton.mp h2]
      · intro s hs
        rcases List.mem_append.mp hs with h1 | h1
        · rcases hrep s h1 with ⟨e, he, hid⟩
          rw [heq] at he
          rcases List.mem_append.mp he with h2 | h2
          · exact ⟨e, List.mem_append.mpr (Or.inl h2), hid⟩
          · rcases List.mem_cons.mp h2 with h3 | h3
            · exact ⟨g, List.mem_append.mpr (Or.inr (List.mem_cons_self g post)),
                by rw [← hid, h3, hexid']⟩
            · exact ⟨e, List.mem_append.mpr
                (Or.inr (List.mem_cons_of_mem g h3)), hid⟩
        · rw [List.mem_singleton.mp h1]
          exact ⟨g, List.mem_append.mpr (Or.inr (List.mem_cons_self g post)), rfl⟩
    · rw [if_neg hmt]
      refine ⟨hnodup, ?_, ?_⟩
      · intro e he
        rcases hdom e he with ⟨hP, hbound⟩
        refine ⟨List.mem_append.mpr (Or.inl hP), ?_⟩
        intro s hs hsid
        rcases List.mem_append.mp hs with h2 | h2
        · exact hbound s h2 hsid
        · rw [List.mem_singleton.mp h2] at hsid ⊢
          have : e = ex := map_nodup_inj hnodup e he ex hexmem
            (by rw [← hsid, hexid])
          rw [this]
          omega
      · intro s hs
        rcases List.mem_append.mp hs with h1 | h1
        · exact hrep s h1
        · rw [List.mem_singleton.mp h1]
          exact ⟨ex, hexmem, hexid⟩

theorem gameFold_inv (mt : String → Nat) :
    ∀ (recs P acc : List GameRec), GInv mt P acc →
      GInv mt (P ++ recs) (recs.foldl (gameStep mt) acc) := by
  intro recs
  induction recs with
  | nil => intro P acc h; simpa using h
  | cons g t ih =>
    intro P acc h
    have h1 := ih (P ++ [g]) (gameStep mt acc g) (gameStep_inv h g)
    rw [List.append_assoc] at h1
    simpa using h1

/-- C6: for any stream of validated manifest records with duplicate app_ids,
the enumeration returns records with pairwise-distinct app_ids, covering
exactly the app_ids seen, and each returned record is one of the input
records whose install path's modification time dominates every duplicate. -/
theorem enumerate_games_dedup (mt : String → Nat) (recs : List GameRec) :
    ((get_steam_games mt recs).map GameRec.app_id).Nodup ∧
    (∀ a : String, (∃ e ∈ get_steam_games mt recs, e.app_id = a) ↔
      ∃ s ∈ recs, s.app_id = a) ∧
    ∀ e ∈ get_steam_games mt recs, e ∈ recs ∧
      ∀ s ∈ recs, s.app_id = e.app_id → mt s.path ≤ mt e.path := by
  have hinv : GInv mt recs (recs.foldl (gameStep mt) []) := by
    have := gameFold_inv mt recs [] [] ⟨by simp, by simp, by simp⟩
    simpa using this
  rcases hinv with ⟨hnodup, hdom, hrep⟩
  have hperm : (get_steam_games mt recs).Perm (recs.foldl (gameStep mt) []) :=
    stableSort_perm gameNameLE _
  refine ⟨?_, ?_, ?_⟩
  · exact (hperm.map GameRec.app_id).symm.nodup hnodup
  · intro a
    constructor
    · rintro ⟨e, he, hid⟩
      have he' := hperm.mem_iff.mp he
      exact ⟨e, (hdom e he').1, hid⟩
    · rintro ⟨s, hs, hid⟩
      rcases hrep s hs with ⟨e, he, heid⟩
      exact ⟨e, hperm.mem_iff.mpr he, heid.trans hid⟩
  · intro e he
    have he' := hperm.mem_iff.mp he
    exact hdom e he'

/-- A name carrying the backup suffix. -/
def hasBackupSuffix (n : String) : Bool := endsWithStr n backupSuffix

theorem fsUpd_same (fs : FS) (n : String) (v : Option (List Nat)) :
    fsUpd fs n v n = v := by simp [fsUpd]

theorem fsUpd_other (fs : FS) {n m : String} (v : Option (List Nat))
    (h : m ≠ n) : fsUpd fs n v m = fs m := by simp [fsUpd, h]

theorem fsUpd_comm (fs : FS) {p q : String} (u v : Option (List Nat))
    (h : p ≠ q) : fsUpd (fsUpd fs p u) q v = fsUpd (fsUpd fs q v) p u := by
  funext m
  simp only [fsUpd]
  by_cases h1 : m = q <;> by_cases h2 : m = p
  · exact absurd (h2 ▸ h1 ▸ rfl) h
  · simp [h1, h2, Ne.symm h]
  · simp [h1, h2, h]
  · simp [h1, h2]

theorem appended_hasSuffix (x : String) :
    hasBackupSuffix (x ++ backupSuffix) = true := by
  unfold hasBackupSuffix endsWithStr
  rw [String.data_append]
  exact List.isSuffixOf_iff_suffix.mpr (List.suffix_append _ _)

theorem append_backupSuffix_inj {x y : String}
    (h : x ++ backupSuffix = y ++ backupSuffix) : x = y := by
  have hd : x.data ++ backupSuffix.data = y.data ++ backupSuffix.data := by
    rw [← String.data_append, ← String.data_append, h]
  exact String.ext (List.append_cancel_right hd)

theorem backupGo_entries :
    ∀ (ns : List String) (fs : FS) (e : String × String),
      e ∈ (backupGo fs ns).2 → e.1 ∈ ns ∧ e.2 = e.1 ++ backupSuffix := by
  intro ns
  induction ns with
  | nil => intro fs e he; simp [backupGo] at he
  | cons n rest ih =>
    intro fs e he
    unfold backupGo at he
    cases hfn : fs n with
    | none =>
      rw [hfn] at he
      rcases ih fs e he with ⟨h1, h2⟩
      exact ⟨List.mem_cons_of_mem n h1, h2⟩
    | some b =>
      rw [hfn] at he
      rcases List.mem_cons.mp he with h1 | h1
      · rw [h1]
        exact ⟨List.mem_cons_self n rest, rfl⟩
      · rcases ih _ e h1 with ⟨h2, h3⟩
        exact ⟨List.mem_cons_of_mem n h2, h3⟩

theorem backupGo_fst_untouched :
    ∀ (ns : List String) (fs : FS) (q : String),
      (∀ m ∈ ns, m ++ backupSuffix ≠ q) → (backupGo fs ns).1 q = fs q := by
  intro ns
  induction ns with
  | nil => intro fs q _; rfl
  | cons n rest ih =>
    intro fs q hq
    unfold backupGo
    cases hfn : fs n with
    | none => exact ih fs q (fun m hm => hq m (List.mem_cons_of_mem n hm))
    | some b =>
      have h1 : (backupGo (fsUpd fs (n ++ backupSuffix) (some b)) rest).1 q =
          fsUpd fs (n ++ backupSuffix) (some b) q :=
        ih _ q (fun m hm => hq m (List.mem_cons_of_mem n hm))
      have h2 : q ≠ n ++ backupSuffix :=
        fun hh => hq n (List.mem_cons_self n rest) hh.symm
      rw [h1, fsUpd_other fs _ h2]

theorem restoreGo_cons_some {fs : FS} {o b : String} {c : List Nat}
    {rest : List (String × String)} (h : fs b = some c) :
    restoreGo fs ((o, b) :: rest) =
      restoreGo (fsUpd (fsUpd fs o (some c)) b none) rest := by
  show (match fs b with
    | some c => restoreGo (fsUpd (fsUpd fs o (some c)) b none) rest
    | none => restoreGo fs rest) = _
  rw [h]

theorem restoreGo_cons_none {fs : FS} {o b : String}
    {rest : List (String × String)} (h : fs b = none) :
    restoreGo fs ((o, b) :: rest) = restoreGo fs rest := by
  show (match fs b with
    | some c => restoreGo (fsUpd (fsUpd fs o (some c)) b none) rest
    | none => restoreGo fs rest) = _
  rw [h]

theorem restoreGo_upd_comm :
    ∀ (mp : List (String × String)) (fs : FS) (q : String)
      (v : Option (List Nat)),
      (∀ e ∈ mp, e.1 ≠ q ∧ e.2 ≠ q) →
      ∀ w, restoreGo (fsUpd fs q v) mp w =
        if w = q then v else restoreGo fs mp w := by
  intro mp
  induction mp with
  | nil =>
    intro fs q v _ w
    show fsUpd fs q v w = _
    rfl
  | cons e rest ih =>
    intro fs q v hmp w
    rcases e with ⟨o, b⟩
    have ho : o ≠ q := (hmp (o, b) (List.mem_cons_self _ _)).1
    have hb : b ≠ q := (hmp (o, b) (List.mem_cons_self _ _)).2
    have hrest : ∀ e' ∈ rest, e'.1 ≠ q ∧ e'.2 ≠ q :=
      fun e' he' => hmp e' (List.mem_cons_of_mem _ he')
    cases hfb : fs b with
    | none =>
      have hfb' : fsUpd fs q v b = none := by rw [fsUpd_other fs v hb, hfb]
      rw [restoreGo_cons_none hfb', restoreGo_cons_none hfb]
      exact ih fs q v hrest w
    | some c =>
      have hfb' : fsUpd fs q v b = some c := by rw [fsUpd_other fs v hb, hfb]
      rw [restoreGo_cons_some hfb', restoreGo_cons_some hfb]
      rw [fsUpd_comm fs v (some c) (Ne.symm ho), fsUpd_comm _ v none (Ne.symm hb)]
      exact ih _ q v hrest w

theorem backup_restore_pointwise :
    ∀ (ns : List String), ns.Nodup → (∀ n ∈ ns, hasBackupSuffix n = false) →
      ∀ (fs : FS) (q : String),
        restoreGo (backupGo fs ns).1 (backupGo fs ns).2 q =
          if ∃ m ∈ ns, q = m ++ backupSuffix ∧ (fs m).isSome = true then none
          else fs q := by
  intro ns
  induction ns with
  | nil =>
    intro _ _ fs q
    rw [if_neg (by rintro ⟨m, hm, _⟩; simp at hm)]
    rfl
  | cons n rest ih =>
    intro hnodup hnosuf fs q
    have hnmem : n ∉ rest := (List.nodup_cons.mp hnodup).1
    have hnodup' : rest.Nodup := (List.nodup_cons.mp hnodup).2
    have hnosuf' : ∀ m ∈ rest, hasBackupSuffix m = false :=
      fun m hm => hnosuf m (List.mem_cons_of_mem n hm)
    have hnsuf : hasBackupSuffix n = false := hnosuf n (List.mem_cons_self n rest)
    unfold backupGo
    cases hfn : fs n with
    | none =>
      have hiff : (∃ m ∈ n :: rest, q = m ++ backupSuffix ∧ (fs m).isSome = true) ↔
          (∃ m ∈ rest, q = m ++ backupSuffix ∧ (fs m).isSome = true) := by
        constructor
        · rintro ⟨m, hm, hq, hs⟩
          rcases List.mem_cons.mp hm with h1 | h1
          · rw [h1, hfn] at hs; simp at hs
          · exact ⟨m, h1, hq, hs⟩
        · rintro ⟨m, hm, hq, hs⟩
          exact ⟨m, List.mem_cons_of_mem n hm, hq, hs⟩
      rw [if_congr hiff rfl rfl]
      exact ih hnodup' hnosuf' fs q
    | some bb =>
      have hB1 : (backupGo (fsUpd fs (n ++ backupSuffix) (some bb)) rest).1
          (n ++ backupSuffix) = some bb := by
        rw [backupGo_fst_untouched rest _ (n ++ backupSuffix) ?_, fsUpd_same]
        intro m hm hmeq
        exact hnmem (append_backupSuffix_inj hmeq ▸ hm)
      show restoreGo (backupGo (fsUpd fs (n ++ backupSuffix) (some bb)) rest).1
          ((n, n ++ backupSuffix) ::
            (backupGo (fsUpd fs (n ++ backupSuffix) (some bb)) rest).2) q = _
      rw [restoreGo_cons_some hB1]
      have hentries : ∀ e ∈ (backupGo (fsUpd fs (n ++ backupSuffix) (some bb)) rest).2,
          e.1 ∈ rest ∧ e.2 = e.1 ++ backupSuffix :=
        fun e he => backupGo_entries rest _ e he
      have hok1 : ∀ e ∈ (backupGo (fsUpd fs (n ++ backupSuffix) (some bb)) rest).2,
          e.1 ≠ n ++ backupSuffix ∧ e.2 ≠ n ++ backupSuffix := by
        intro e he
        rcases hentries e he with ⟨h1, h2⟩
        constructor
        · intro hh
          have := hnosuf' e.1 h1
          rw [hh, appended_hasSuffix] at this
          cases this
        · intro hh
          rw [h2] at hh
          exact hnmem (append_backupSuffix_inj hh ▸ h1)
      have hok2 : ∀ e ∈ (backupGo (fsUpd fs (n ++ backupSuffix) (some bb)) rest).2,
          e.1 ≠ n ∧ e.2 ≠ n := by
        intro e he
        rcases hentries e he with ⟨h1, h2⟩
        constructor
        · intro hh; exact hnmem (hh ▸ h1)
        · intro hh
          have := hnsuf
          rw [← hh, h2, appended_hasSuffix] at this
          cases this
      rw [restoreGo_upd_comm _ _ _ none hok1 q]
      by_cases hq1 : q = n ++ backupSuffix
      · rw [if_pos hq1, if_pos ⟨n, List.mem_cons_self n rest, hq1, by rw [hfn]; rfl⟩]
      · rw [if_neg hq1, restoreGo_upd_comm _ _ _ (some bb) hok2 q]
        by_cases hq2 : q = n
        · rw [if_pos hq2, if_neg ?_, hq2, hfn]
          rintro ⟨m, _, hqm, _⟩
          have := hnsuf
          rw [hq2] at hqm
          rw [hqm, appended_hasSuffix] at this
          cases this
        · rw [if_neg hq2, ih hnodup' hnosuf' _ q]
          have hiff : (∃ m ∈ rest, q = m ++ backupSuffix ∧
              ((fsUpd fs (n ++ backupSuffix) (some bb)) m).isSome = true) ↔
              (∃ m ∈ n :: rest, q = m ++ backupSuffix ∧ (fs m).isSome = true) := by
            constructor
            · rintro ⟨m, hm, hqm, hs⟩
              have hmne : m ≠ n ++ backupSuffix := by
                intro hh
                have := hnosuf' m hm
                rw [hh, appended_hasSuffix] at this
                cases this
              rw [fsUpd_other fs _ hmne] at hs
              exact ⟨m, List.mem_cons_of_mem n hm, hqm, hs⟩
            · rintro ⟨m, hm, hqm, hs⟩
              rcases List.mem_cons.mp hm with h1 | h1
              · exact absurd (h1 ▸ hqm) hq1
              · have hmne : m ≠ n ++ backupSuffix := by
                  intro hh
                  have := hnosuf' m h1
                  rw [hh, appended_hasSuffix] at this
                  cases this
                refine ⟨m, h1, hqm, ?_⟩
                rw [fsUpd_other fs _ hmne]
                exact hs
          rw [if_congr hiff rfl rfl]
          by_cases hcond : ∃ m ∈ n :: rest, q = m ++ backupSuffix ∧
              (fs m).isSome = true
          · rw [if_pos hcond, if_pos hcond]
          · rw [if_neg hcond, if_neg hcond, fsUpd_other fs _ hq1]

/-- C8: on a directory whose files are among the five known vendor DLL
names, backing the conflicting files up and then running the uninstall
restore step yields byte-identical contents at every original name and
leaves no file carrying the `.optiscaler_backup` suffix behind. -/
theorem backup_restore_roundtrip (fs : FS)
    (hdom : ∀ n, fs n ≠ none → n ∈ files_to_backup) :
    (∀ n ∈ files_to_backup,
      restoreGo (backup_original_files fs).1 (backup_original_files fs).2 n =
        fs n) ∧
    (∀ n, hasBackupSuffix n = true →
      restoreGo (backup_original_files fs).1 (backup_original_files fs).2 n =
        none) := by
  have hnodup : files_to_backup.Nodup := by decide
  have hnosuf : ∀ n ∈ files_to_backup, hasBackupSuffix n = false := by decide
  constructor
  · intro n hn
    rw [show backup_original_files fs = backupGo fs files_to_backup from rfl,
      backup_restore_pointwise files_to_backup hnodup hnosuf fs n]
    rw [if_neg ?_]
    rintro ⟨m, _, hqm, _⟩
    have := hnosuf n hn
    rw [hqm, appended_hasSuffix] at this
    cases this
  · intro n hn
    rw [show backup_original_files fs = backupGo fs files_to_backup from rfl,
      backup_restore_pointwise files_to_backup hnodup hnosuf fs n]
    by_cases hcond : ∃ m ∈ files_to_backup, n = m ++ backupSuffix ∧
        (fs m).isSome = true
    · rw [if_pos hcond]
    · rw [if_neg hcond]
      by_cases hfn : fs n = none
      · exact hfn
      · have := hnosuf n (hdom n hfn)
        rw [hn] at this
        cases this

/-- A directory holding one vendor DLL with known contents. -/
def fsW : FS := fun n => if n = "nvngx.dll" then some [7] else none

/-- C8 witness: the single-DLL directory round-trips. -/
theorem backup_restore_roundtrip_witness :
    restoreGo (backup_original_files fsW).1 (backup_original_files fsW).2
        "nvngx.dll" = fsW "nvngx.dll" ∧
    restoreGo (backup_original_files fsW).1 (backup_original_files fsW).2
        "nvngx.dll.optiscaler_backup" = none := by
  have hdom : ∀ n, fsW n ≠ none → n ∈ files_to_backup := by
    intro n h
    by_cases hh : n = "nvngx.dll"
    · rw [hh]; exact List.mem_cons_self _ _
    · exact absurd (by simp [fsW, hh]) h
  have h := backup_restore_roundtrip fsW hdom
  exact ⟨h.1 "nvngx.dll" (List.mem_cons_self _ _),
    h.2 "nvngx.dll.optiscaler_backup" (by decide)⟩

/-- C10 witness: a key line sitting under an unrelated section is the one
rewritten. -/
theorem configure_rewrites_first_key_line_witness :
    (["[Renderer]", "Fsr4Update=false"].any isKeyLine = true) ∧
    ∃ pre l post,
      ["[Renderer]", "Fsr4Update=false"] = pre ++ l :: post ∧
      (∀ x ∈ pre, isKeyLine x = false) ∧ isKeyLine l = true ∧
      configureLines ["[Renderer]", "Fsr4Update=false"] =
        pre ++ "Fsr4Update=true" :: post :=
  ⟨by decide,
   configure_rewrites_first_key_line ["[Renderer]", "Fsr4Update=false"]
     (by decide)⟩

end OptiScaler
